import Mathlib

/-!
Verification of the llmdata text-corpus processing engine against its
specification.  The Python sources are embedded shallowly: rows are
association lists of string keys and dynamic values, numpy vectors become
lists of naturals with explicit wraparound, floats that hold exact ratios
become rationals, and fallible operations return `Except`.
-/

namespace LLMData

/-- Dynamic value domain for rows: Python `None`, booleans, integers,
float-valued ratios (kept exact as rationals), strings and nested dicts. -/
inductive Value where
  | vnone
  | vbool (b : Bool)
  | vint (n : Int)
  | vrat (q : Rat)
  | vstr (s : String)
  | vdict (fields : List (String × Value))

/-- A row is a Python dict: an insertion-ordered association list. -/
abbrev Row := List (String × Value)

/-- Errors raised by the nested field accessors in `llmdata.core.utils`:
`ValueError("Field cannot be empty")` and `TypeError` when an intermediate
path component exists but is not a dict. -/
inductive FieldError where
  | emptyPath
  | typeError
deriving DecidableEq

/-- Python `s.split(c)` for a single separator character: split at every
occurrence, keeping empty pieces (so the result is never empty). -/
def splitCharAux (c : Char) : List Char → List Char → List String
  | [], cur => [String.mk cur.reverse]
  | x :: xs, cur =>
    if x = c then String.mk cur.reverse :: splitCharAux c xs []
    else splitCharAux c xs (x :: cur)

/-- Python `s.split(c)` on a string. -/
def pySplitChar (c : Char) (s : String) : List String :=
  splitCharAux c s.toList []

/-- Dict read: first binding of a key (Python `current[key]`). -/
def dictGet : List (String × Value) → String → Option Value
  | [], _ => none
  | (k, v) :: rest, key => if k = key then some v else dictGet rest key

/-- Dict write: update the binding of a key in place, or append it
(Python `current[key] = value`). -/
def dictSet : List (String × Value) → String → Value → List (String × Value)
  | [], key, v => [(key, v)]
  | (k, w) :: rest, key, v =>
    if k = key then (key, v) :: rest else (k, w) :: dictSet rest key v

/-- Recursive core of `set_field`: walk the dot-split key list, creating
intermediate dicts for missing keys and failing with `typeError` when an
existing intermediate is not a dict. -/
def setFieldAux : List (String × Value) → List String → Value → Except FieldError (List (String × Value))
  | _, [], _ => .error .emptyPath
  | d, [k], v => .ok (dictSet d k v)
  | d, k :: k2 :: rest, v =>
    match dictGet d k with
    | none =>
      match setFieldAux [] (k2 :: rest) v with
      | .ok sub => .ok (dictSet d k (.vdict sub))
      | .error e => .error e
    | some (.vdict sub) =>
      match setFieldAux sub (k2 :: rest) v with
      | .ok sub2 => .ok (dictSet d k (.vdict sub2))
      | .error e => .error e
    | some _ => .error .typeError

/-- `llmdata.core.utils.set_field`: set a value in a nested dict using dot
notation; an empty field raises `ValueError` before touching the row. -/
def set_field (row : Row) (field : String) (v : Value) : Except FieldError Row :=
  if field = "" then .error .emptyPath
  else setFieldAux row (pySplitChar '.' field) v

/-- Recursive core of `get_field`: walk the dot-split key list, returning
`none` when the current value is not a dict or lacks the key. -/
def getFieldAux : Value → List String → Option Value
  | cur, [] => some cur
  | .vdict d, k :: rest =>
    match dictGet d k with
    | some v => getFieldAux v rest
    | none => none
  | _, _ :: _ => none

/-- `llmdata.core.utils.get_field`: read a value from a nested dict using dot
notation; an empty field returns `None`. -/
def get_field (row : Row) (field : String) : Option Value :=
  if field = "" then none
  else getFieldAux (.vdict row) (pySplitChar '.' field)

/-- The dotted path meets, before its final component, an existing
intermediate value that is not a dict: the exact condition under which
`set_field` raises `TypeError` (missing keys are created as fresh dicts and
can never cross anything). -/
def crossesNonDict : List (String × Value) → List String → Bool
  | _, [] => false
  | _, [_] => false
  | d, k :: k2 :: rest =>
    match dictGet d k with
    | none => false
    | some (.vdict sub) => crossesNonDict sub (k2 :: rest)
    | some _ => true

/-- Python whitespace for `str.strip` / `str.split()`. -/
def isPyWs (c : Char) : Bool :=
  c == ' ' || c == '\t' || c == '\n' || c == '\r' || c == '\x0b' || c == '\x0c'

/-- Python `str.strip()`: drop leading and trailing whitespace. -/
def pyStrip (s : String) : String :=
  String.mk (((s.toList.dropWhile isPyWs).reverse.dropWhile isPyWs).reverse)

/-- A maximal character run that the splitter patterns treat as a separator:
at least `k` newlines (`\n{2,}` for paragraphs, `\n+` for lines). -/
def isNlRun (k : ℕ) (g : List Char) : Bool :=
  decide (k ≤ g.length) && g.all (fun c => c == '\n')

/-- Reassemble the maximal same-kind character runs into the pieces between
separator runs, mirroring `re.split` of a greedy newline-run pattern. -/
def assembleSplit (k : ℕ) : List (List Char) → List Char → List String
  | [], cur => [String.mk cur]
  | g :: gs, cur =>
    if isNlRun k g then String.mk cur :: assembleSplit k gs []
    else assembleSplit k gs (cur ++ g)

/-- `re.split` of the pattern matching runs of at least `k` newlines, as used
by `GopherRepetitionTagger` (`\n{2,}` with `k = 2`, `\n+` with `k = 1`). -/
def splitNlRuns (k : ℕ) (s : String) : List String :=
  assembleSplit k (s.toList.splitBy (fun a b => (a == '\n') == (b == '\n'))) []

/-- Loop of `GopherRepetitionTagger._find_duplicates`, carrying the set of
seen elements and both counters. -/
def findDupAux : List String → List String → ℕ → ℕ → ℕ × ℕ
  | [], _, de, dc => (de, dc)
  | x :: rest, seen, de, dc =>
    if seen.contains x then findDupAux rest seen (de + 1) (dc + x.length)
    else findDupAux rest (x :: seen) de dc

/-- `GopherRepetitionTagger._find_duplicates`: an element counts as duplicate
from its second occurrence onward; returns (duplicate count, duplicate chars). -/
def findDuplicates (xs : List String) : ℕ × ℕ := findDupAux xs [] 0 0

/-- The four duplicate-fraction metrics of `GopherRepetitionTagger.__call__`. -/
structure RepetitionFracs where
  dupParaFrac : ℚ
  dupParaCharFrac : ℚ
  dupLineFrac : ℚ
  dupLineCharFrac : ℚ

/-- Paragraph and line duplicate fractions from the main branch of
`GopherRepetitionTagger.__call__`: paragraphs are the `\n{2,}`-splits of the
stripped text, lines the `\n+`-splits of the raw text, and both char
fractions divide by `max(len(text), 1)`. -/
def gopherRepetitionFracs (text : String) : RepetitionFracs :=
  let textLen := text.length
  let paragraphs := splitNlRuns 2 (pyStrip text)
  let pf : ℚ × ℚ :=
    if paragraphs.isEmpty then (0, 0)
    else
      let pd := findDuplicates paragraphs
      ((pd.1 : ℚ) / (paragraphs.length : ℚ), (pd.2 : ℚ) / ((max textLen 1 : ℕ) : ℚ))
  let lines := splitNlRuns 1 text
  let lf : ℚ × ℚ :=
    if lines.isEmpty then (0, 0)
    else
      let ld := findDuplicates lines
      ((ld.1 : ℚ) / (lines.length : ℚ), (ld.2 : ℚ) / ((max textLen 1 : ℕ) : ℚ))
  ⟨pf.1, pf.2, lf.1, lf.2⟩

/-- Word splitting used by the repetition tagger:
`" ".join(text.split(" ")).split(" ")` equals `text.split(" ")`, since the
pieces of a split on `" "` contain no space. -/
def pyWords (text : String) : List String := pySplitChar ' ' text

/-- `GopherRepetitionTagger._get_n_grams`: the space-joined windows of `n`
consecutive words. -/
def getNGrams (words : List String) (n : ℕ) : List String :=
  (List.range (words.length + 1 - n)).map
    (fun i => String.intercalate " " ((words.drop i).take n))

/-- One `Counter` update: increment a key in place or append it with count 1. -/
def bump : List (String × ℕ) → String → List (String × ℕ)
  | [], x => [(x, 1)]
  | (k, c) :: rest, x => if k = x then (k, c + 1) :: rest else (k, c) :: bump rest x

/-- Build a `collections.Counter` in first-occurrence order. -/
def tally (xs : List String) : List (String × ℕ) := xs.foldl bump []

/-- `Counter.most_common(1)`: the entry of maximal count; a strict comparison
keeps the earliest entry on ties. -/
def topPair : List (String × ℕ) → Option (String × ℕ)
  | [] => none
  | p :: rest => some (rest.foldl (fun best q => if best.2 < q.2 then q else best) p)

/-- `GopherRepetitionTagger._find_top_duplicate`: length of the most common
n-gram times its count, 0 for an empty list. -/
def findTopDuplicate (xs : List String) : ℕ :=
  match topPair (tally xs) with
  | none => 0
  | some p => p.1.length * p.2

/-- While-loop of `GopherRepetitionTagger._find_all_duplicate`.  The index
advances by `n` on a repeat and by 1 otherwise; the fuel bounds the iteration
count, which for `n ≥ 1` never exceeds the word count. -/
def findAllDupAux (words : List String) (n nWords : ℕ) :
    ℕ → ℕ → List String → ℕ → ℕ
  | 0, _, _, acc => acc
  | fuel + 1, idx, seen, acc =>
    if idx + n ≤ nWords then
      let g := String.join ((words.drop idx).take n)
      if seen.contains g then findAllDupAux words n nWords fuel (idx + n) seen (acc + g.length)
      else findAllDupAux words n nWords fuel (idx + 1) (g :: seen) acc
    else acc

/-- `GopherRepetitionTagger._find_all_duplicate`: characters covered by
repeated `n`-grams of concatenated words. -/
def findAllDuplicate (words : List String) (n : ℕ) : ℕ :=
  findAllDupAux words n words.length (words.length + 1) 0 [] 0

/-- The `top_{n}_gram_char_frac` value of the main branch. -/
def topGramFrac (words : List String) (n textLen : ℕ) : ℚ :=
  let gs := getNGrams words n
  if gs.isEmpty then 0 else (findTopDuplicate gs : ℚ) / ((max textLen 1 : ℕ) : ℚ)

/-- The `dup_{n}_gram_char_frac` value of the main branch. -/
def dupGramFrac (words : List String) (n textLen : ℕ) : ℚ :=
  (findAllDuplicate words n : ℚ) / ((max textLen 1 : ℕ) : ℚ)

/-- Field name `top_{n}_gram_char_frac` resp. `dup_{n}_gram_char_frac`. -/
def gramField (pre : String) (n : ℕ) : String := pre ++ toString n ++ "_gram_char_frac"

/-- The record written by `GopherRepetitionTagger.__call__` for non-empty
text, in the source's key insertion order. -/
def gopherRepetitionRecord (topNs dupNs : List ℕ) (text : String) : List (String × Value) :=
  let fr := gopherRepetitionFracs text
  let words := pyWords text
  [("dup_para_frac", .vrat fr.dupParaFrac), ("dup_para_char_frac", .vrat fr.dupParaCharFrac),
   ("dup_line_frac", .vrat fr.dupLineFrac), ("dup_line_char_frac", .vrat fr.dupLineCharFrac)]
  ++ topNs.map (fun n => (gramField "top_" n, Value.vrat (topGramFrac words n text.length)))
  ++ dupNs.map (fun n => (gramField "dup_" n, Value.vrat (dupGramFrac words n text.length)))

/-- The record written by `GopherRepetitionTagger.__call__` for empty text:
all ratios 0.0 and `overall_score` 1.0, in the source's key order. -/
def gopherRepetitionEmptyRecord (topNs dupNs : List ℕ) : List (String × Value) :=
  [("dup_line_frac", .vrat 0), ("dup_para_frac", .vrat 0),
   ("dup_line_char_frac", .vrat 0), ("dup_para_char_frac", .vrat 0),
   ("overall_score", .vrat 1)]
  ++ topNs.map (fun n => (gramField "top_" n, Value.vrat 0))
  ++ dupNs.map (fun n => (gramField "dup_" n, Value.vrat 0))

/-- Python truthiness of an optional field value (`if not text`). -/
def pyFalsy : Option Value → Bool
  | none => true
  | some .vnone => true
  | some (.vbool b) => !b
  | some (.vint n) => n == 0
  | some (.vrat q) => q == 0
  | some (.vstr s) => s == ""
  | some (.vdict d) => d.isEmpty

/-- `GopherRepetitionTagger.__call__`: read the `on` field, write the empty
record on falsy text, the computed record otherwise.  A truthy non-string
value would raise in Python (no `.strip` attribute), embedded as an error. -/
def gopherRepetitionCall (topNs dupNs : List ℕ) (onF toF : String) (row : Row) :
    Except FieldError Row :=
  let t := get_field row onF
  if pyFalsy t then set_field row toF (.vdict (gopherRepetitionEmptyRecord topNs dupNs))
  else
    match t with
    | some (.vstr s) => set_field row toF (.vdict (gopherRepetitionRecord topNs dupNs s))
    | _ => .error .typeError

/-- The unsigned 32-bit modulus 2^32 named by the spec. -/
def U32 : ℕ := 2 ^ 32

/-- `Signature.max_val = (1 << 32) - 1`, the largest uint32 value.  This is
2^32 - 1, one less than the modulus 2^32. -/
def maxVal : ℕ := 2 ^ 32 - 1

/-- 2^64, the wraparound modulus of numpy uint64 arithmetic. -/
def U64 : ℕ := 2 ^ 64

/-- One permutation hash of `Signature._get_minhash_signature`:
`((a * shingle_hash + b) % prime) % max_val` computed on uint64 values. -/
def permHash (p a b h : ℕ) : ℕ := ((a * h % U64 + b) % U64 % p) % maxVal

/-- The vector of permutation hashes of one shingle hash `h`. -/
def permHashRow (P p : ℕ) (a b : ℕ → ℕ) (h : ℕ) : List ℕ :=
  (List.range P).map (fun i => permHash p (a i) (b i) h)

/-- `Signature._get_minhash_signature`: the all-zero vector on an empty
shingle set, otherwise the fold of `np.minimum` over the shingles starting
from the vector filled with `max_val`.  The permutation vectors `a`, `b`
(drawn by the seeded numpy PRNG from `[1, max_val)` and `[0, max_val)`) and
the 32-bit unsigned `mmh3` digest are parameters of the embedding, since both
generators live in external libraries. -/
def getMinhashSignature (P p : ℕ) (a b : ℕ → ℕ) (hsh : String → ℕ)
    (shingles : List String) : List ℕ :=
  if shingles.isEmpty then List.replicate P 0
  else shingles.foldl (fun sig s => List.zipWith min sig (permHashRow P p a b (hsh s)))
    (List.replicate P maxVal)

/-- The formula the claim states for the MinHash signature: component-wise
minimum over shingles of `((a*h + b) mod p) mod 2^32`, initialized to
`2^32 - 1`.  Stated from the spec's words, to be compared with
`getMinhashSignature`. -/
def minhashSpecFormula (P p : ℕ) (a b : ℕ → ℕ) (hsh : String → ℕ)
    (shingles : List String) : List ℕ :=
  (List.range P).map (fun i =>
    (shingles.map (fun s => (a i * hsh s + b i) % p % U32)).foldl min (U32 - 1))

/-- The amended formula: the same component-wise minimum with the outer
modulus `max_val = 2^32 - 1` actually used by the code. -/
def minhashAmendedFormula (P p : ℕ) (a b : ℕ → ℕ) (hsh : String → ℕ)
    (shingles : List String) : List ℕ :=
  (List.range P).map (fun i =>
    (shingles.map (fun s => (a i * hsh s + b i) % p % maxVal)).foldl min maxVal)

/-- Python `str.split()` with no separator: split on whitespace runs and drop
empty pieces. -/
def pySplitWs (s : String) : List String :=
  (s.toList.splitBy (fun a b => isPyWs a == isPyWs b)).filterMap
    (fun g => if g.all isPyWs then none else some (String.mk g))

/-- `Signature._get_ngrams` materialized: the `n`-word windows produced by
zipping `n` shifted iterators (`zip()` of zero iterables is empty). -/
def signatureNGrams (n : ℕ) (ws : List String) : List (List String) :=
  if n = 0 then []
  else (List.range (ws.length + 1 - n)).map (fun i => (ws.drop i).take n)

/-- `Signature._get_shingles`: the singleton of the space-joined words when
there are fewer than `n` words, otherwise the set of space-joined `n`-gram
windows (the Python set is kept as a deduplicated list). -/
def getShingles (n : ℕ) (text : String) : List String :=
  let words := pySplitWs text
  if words.length < n then [String.intercalate " " words]
  else ((signatureNGrams n words).map (fun g => String.intercalate " " g)).dedup

/-- The `[num_bands × bloom_size]` bit matrix of `BandedBloomFilter`,
as a predicate on (band, bit) indices. -/
abbrev BloomBits := ℕ → ℕ → Bool

/-- `BandedBloomFilter.put`: set, in every band, the bits at the hash indices
of that band's signature value.  The band signature `sig` and the per-value
index list `hashesOf` (`mmh3` with seeds `0..H-1`, mod the filter size) are
parameters of the embedding. -/
def bloomPut (sig : String → List ℕ) (hashesOf : ℕ → List ℕ) (st : BloomBits)
    (data : String) : BloomBits :=
  fun i j => st i j || (sig data).enum.any (fun bv => bv.1 == i && (hashesOf bv.2).contains j)

/-- `BandedBloomFilter.get`: true iff some band has all bits at its hash
indices set; the state is only read. -/
def bloomGet (sig : String → List ℕ) (hashesOf : ℕ → List ℕ) (st : BloomBits)
    (data : String) : Bool :=
  (sig data).enum.any (fun bv => (hashesOf bv.2).all (fun j => st bv.1 j))

/-- An operation issued to the bloom-filter actor during a run. -/
inductive BloomOp where
  | put (data : String)
  | get (data : String)

/-- Effect of one operation on the filter state: `put` sets bits, `get` is
read-only. -/
def bloomStep (sig : String → List ℕ) (hashesOf : ℕ → List ℕ) (st : BloomBits) :
    BloomOp → BloomBits
  | .put d => bloomPut sig hashesOf st d
  | .get _ => st

/-- Filter state after a sequence of operations. -/
def bloomRun (sig : String → List ℕ) (hashesOf : ℕ → List ℕ) (st : BloomBits)
    (ops : List BloomOp) : BloomBits :=
  ops.foldl (bloomStep sig hashesOf) st

/-- Python `x is None` on a dynamic value. -/
def pyIsNone : Value → Bool
  | .vnone => true
  | _ => false

/-- Paragraph loop of `DeduplicationFormatter.__call__`: for each paragraph,
`ray.get(self._actor.get.remote(p))` yields the boolean returned by
`BandedBloomFilter.get`, and the code then tests that value with `is None`;
only when the test succeeds is the paragraph inserted and retained. -/
def dedupParagraphLoop (sig : String → List ℕ) (hashesOf : ℕ → List ℕ)
    (st : BloomBits) (paras : List String) : BloomBits × List Bool :=
  paras.foldl (fun acc p =>
    let m : Value := .vbool (bloomGet sig hashesOf acc.1 p)
    if pyIsNone m then (bloomPut sig hashesOf acc.1 p, acc.2 ++ [true])
    else (acc.1, acc.2 ++ [false]))
    (st, [])

/-- `DeduplicationFormatter.__call__` on one row: falsy text passes through;
otherwise the text is split on `split_char` (or kept whole when it is null),
the paragraph loop runs, and the `to` field receives the empty string when no
paragraph was retained, else the retained paragraphs rejoined.  The source's
`split_char` string is embedded as the single character the stage uses. -/
def dedupCall (sig : String → List ℕ) (hashesOf : ℕ → List ℕ)
    (splitChar : Option Char) (onF toF : String) (st : BloomBits) (row : Row) :
    BloomBits × Except FieldError Row :=
  let t := get_field row onF
  if pyFalsy t then (st, .ok row)
  else
    match t with
    | some (.vstr text) =>
      let paras := match splitChar with
        | some c => pySplitChar c text
        | none => [text]
      let res := dedupParagraphLoop sig hashesOf st paras
      if res.2.any id = false then (res.1, set_field row toF (.vstr ""))
      else
        let kept := (paras.zip res.2).filterMap (fun pu => if pu.2 then some pu.1 else none)
        match splitChar with
        | some c => (res.1, set_field row toF (.vstr (String.intercalate (String.mk [c]) kept)))
        | none => (res.1, set_field row toF (.vstr (kept.headD "")))
    | _ => (st, .error .typeError)

/-- One iteration of the divisor scan in `BandedBloomFilter._set_bands`,
carrying `(best_b, best_r, best_error)`; `none` stands for the initial
`float("inf")`.  The error expression `abs((1/b)**(1/r) - threshold)` is
abstracted as the function `err` on divisor pairs. -/
def setBandsStep (P : ℕ) (err : ℕ → ℕ → ℚ) (s : ℕ × ℕ × Option ℚ) (b : ℕ) :
    ℕ × ℕ × Option ℚ :=
  if P % b = 0 then
    match s.2.2 with
    | none => (b, P / b, some (err b (P / b)))
    | some be => if err b (P / b) < be then (b, P / b, some (err b (P / b))) else s
  else s

/-- `BandedBloomFilter._set_bands`: scan `b = 1..P`, keeping the divisor pair
whose error is strictly smaller than the best so far, starting from
`(1, P, inf)`. -/
def setBands (P : ℕ) (err : ℕ → ℕ → ℚ) : ℕ × ℕ :=
  let s := (List.range' 1 P).foldl (setBandsStep P err) (1, P, none)
  (s.1, s.2.1)

/-- Invariant of the `_set_bands` scan after the candidates `1..k`: either no
divisor was seen and the state is still the initial one, or the state holds
the first divisor attaining the minimal error among `1..k`. -/
def BandsGood (P : ℕ) (err : ℕ → ℕ → ℚ) (k : ℕ) : ℕ × ℕ × Option ℚ → Prop
  | (bb, br, none) => bb = 1 ∧ br = P ∧ ∀ b, 1 ≤ b → b ≤ k → P % b ≠ 0
  | (bb, br, some e) =>
    1 ≤ bb ∧ bb ≤ k ∧ P % bb = 0 ∧ br = P / bb ∧ e = err bb br ∧
    ∀ b, 1 ≤ b → b ≤ k → P % b = 0 →
      e ≤ err b (P / b) ∧ (err b (P / b) = e → bb ≤ b)

/-- Stable insertion into a count-descending list: a new entry goes after all
entries whose count is at least its own, matching the tie behavior of
`Counter.most_common` (earlier-inserted keys first). -/
def insertByCountDesc (x : String × ℕ) : List (String × ℕ) → List (String × ℕ)
  | [] => [x]
  | y :: ys => if x.2 ≤ y.2 then y :: insertByCountDesc x ys else x :: y :: ys

/-- `Counter.most_common`: all entries sorted by count descending (stable),
truncated to the first `k` when `k` is given. -/
def mostCommon (k : Option ℕ) (c : List (String × ℕ)) : List (String × ℕ) :=
  let sorted := c.foldl (fun acc x => insertByCountDesc x acc) []
  match k with
  | none => sorted
  | some n => sorted.take n

/-- `CounterAggFn`: the ray aggregation function; its `top_k` constructor
argument defaults to `None`. -/
structure CounterAggFn where
  top_k : Option ℕ := none

/-- `CounterAggFn.finalize`: `accumulator.most_common(self.top_k)`. -/
def counterFinalize (f : CounterAggFn) (acc : List (String × ℕ)) : List (String × ℕ) :=
  mostCommon f.top_k acc

/-- `CounterAggregation.__call__`: constructs
`CounterAggFn(name=..., on=..., zero_factory=..., ignore_nulls=True)`.
The configured `top_k` field is not forwarded, so the constructed function
keeps the default `top_k = None`. -/
def counterAggregationCall (_cfgTopK : Option ℕ) : CounterAggFn := {}

theorem dictGet_dictSet (d : List (String × Value)) (k : String) (v : Value) :
    dictGet (dictSet d k v) k = some v := by
  induction d with
  | nil => simp [dictGet, dictSet]
  | cons hd tl ih =>
    by_cases h : hd.1 = k
    · simp [dictGet, dictSet, h]
    · simp only [dictSet, h, if_false]
      simp [dictGet, h, ih]

theorem getField_setFieldAux (ks : List String) :
    ∀ (d sub : List (String × Value)) (v : Value),
      setFieldAux d ks v = .ok sub → getFieldAux (.vdict sub) ks = some v := by
  induction ks with
  | nil => intro d sub v h; simp [setFieldAux] at h
  | cons k rest ih =>
    intro d sub v h
    cases rest with
    | nil =>
      simp only [setFieldAux, Except.ok.injEq] at h
      subst h
      simp [getFieldAux, dictGet_dictSet]
    | cons k2 rest2 =>
      simp only [setFieldAux] at h
      split at h
      · -- the head key is absent: a fresh nested dict is created
        split at h
        · rename_i sub0 hrec
          simp only [Except.ok.injEq] at h
          subst h
          simp only [getFieldAux, dictGet_dictSet]
          exact ih [] sub0 v hrec
        · exact absurd h (by simp)
      · -- the head key holds a dict: recurse into it
        rename_i sub0 hget
        split at h
        · rename_i sub1 hrec
          simp only [Except.ok.injEq] at h
          subst h
          simp only [getFieldAux, dictGet_dictSet]
          exact ih sub0 sub1 v hrec
        · exact absurd h (by simp)
      · -- the head key holds a non-dict: a type error, not a success
        exact absurd h (by simp)

/-- Claim C7: for every row, value and non-empty dotted path whose traversal
does not cross an existing non-record intermediate (that is, `set_field`
succeeds), setting the path and then getting it returns the value. -/
theorem set_field_get_field (row row2 : Row) (p : String) (v : Value)
    (h : set_field row p v = .ok row2) : get_field row2 p = some v := by
  unfold set_field at h
  by_cases hp : p = ""
  · rw [hp] at h; simp at h
  · rw [if_neg hp] at h
    unfold get_field
    rw [if_neg hp]
    exact getField_setFieldAux (pySplitChar '.' p) row row2 v h

/-- Witness for C7 at the concrete row `{}`, path `"a.b"`, value `7`. -/
theorem set_field_get_field_witness :
    get_field [("a", .vdict [("b", .vint 7)])] "a.b" = some (.vint 7) :=
  set_field_get_field [] [("a", .vdict [("b", .vint 7)])] "a.b" (.vint 7) (by rfl)

/-- Claim C8: getting the empty path returns null, and setting the empty path
fails with the empty-path error (the row is untouched: the error is raised
before any mutation). -/
theorem empty_path_behavior (row : Row) (v : Value) :
    get_field row "" = none ∧ set_field row "" v = .error .emptyPath := by
  constructor
  · simp [get_field]
  · simp [set_field]

/-- Claim C4 counterexample: on the text `"A\n\nA\n\nA"` the code divides the
2 duplicate-paragraph characters by the full text length 7, so
`dup_para_char_frac` is 2/7 and not the claimed 2/5. -/
theorem gopher_repetition_para_char_cex :
    (gopherRepetitionFracs "A\n\nA\n\nA").dupParaCharFrac = 2 / 7 ∧ (2 / 7 : ℚ) ≠ 2 / 5 := by
  constructor
  · have h : (gopherRepetitionFracs "A\n\nA\n\nA").dupParaCharFrac
        = ((2 : ℕ) : ℚ) / ((7 : ℕ) : ℚ) := rfl
    rw [h]; norm_num
  · norm_num

/-- Claim C4 (amended): on the 7-character text `"A\n\nA\n\nA"` the Gopher
repetition tagger computes `dup_para_frac = 2/3`, `dup_line_frac = 2/3` and
`dup_para_char_frac = 2/7`. -/
theorem gopher_repetition_pure_duplicates :
    (gopherRepetitionFracs "A\n\nA\n\nA").dupParaFrac = 2 / 3 ∧
    (gopherRepetitionFracs "A\n\nA\n\nA").dupLineFrac = 2 / 3 ∧
    (gopherRepetitionFracs "A\n\nA\n\nA").dupParaCharFrac = 2 / 7 := by
  refine ⟨?_, ?_, ?_⟩
  · have h : (gopherRepetitionFracs "A\n\nA\n\nA").dupParaFrac
        = ((2 : ℕ) : ℚ) / ((3 : ℕ) : ℚ) := rfl
    rw [h]; norm_num
  · have h : (gopherRepetitionFracs "A\n\nA\n\nA").dupLineFrac
        = ((2 : ℕ) : ℚ) / ((3 : ℕ) : ℚ) := rfl
    rw [h]; norm_num
  · have h : (gopherRepetitionFracs "A\n\nA\n\nA").dupParaCharFrac
        = ((2 : ℕ) : ℚ) / ((7 : ℕ) : ℚ) := rfl
    rw [h]; norm_num

theorem splitCharAux_ne_nil (c : Char) (cs : List Char) :
    ∀ cur, splitCharAux c cs cur ≠ [] := by
  induction cs with
  | nil => intro cur; simp [splitCharAux]
  | cons x xs ih =>
    intro cur
    unfold splitCharAux
    by_cases hx : x = c
    · simp [hx]
    · rw [if_neg hx]
      exact ih (x :: cur)

theorem setFieldAux_typeError (ks : List String) :
    ∀ (d : List (String × Value)) (v : Value), crossesNonDict d ks = true →
      setFieldAux d ks v = .error .typeError := by
  induction ks with
  | nil => intro d v h; simp [crossesNonDict] at h
  | cons k rest ih =>
    intro d v h
    cases rest with
    | nil => simp [crossesNonDict] at h
    | cons k2 rest2 =>
      cases hget : dictGet d k with
      | none => simp [crossesNonDict, hget] at h
      | some w =>
        cases w with
        | vdict sub =>
          simp only [crossesNonDict, hget] at h
          simp only [setFieldAux, hget]
          rw [ih sub v h]
        | vnone => simp [setFieldAux, hget]
        | vbool b => simp [setFieldAux, hget]
        | vint n => simp [setFieldAux, hget]
        | vrat q => simp [setFieldAux, hget]
        | vstr s => simp [setFieldAux, hget]

theorem setFieldAux_ok_of_not_crossing (ks : List String) :
    ∀ (d : List (String × Value)) (v : Value), ks ≠ [] → crossesNonDict d ks = false →
      ∃ d2, setFieldAux d ks v = .ok d2 := by
  induction ks with
  | nil => intro d v hne _; exact absurd rfl hne
  | cons k rest ih =>
    intro d v _ h
    cases rest with
    | nil => exact ⟨dictSet d k v, rfl⟩
    | cons k2 rest2 =>
      cases hget : dictGet d k with
      | none =>
        have hsub : crossesNonDict [] (k2 :: rest2) = false := by
          cases rest2 <;> simp [crossesNonDict, dictGet]
        obtain ⟨sub, hsubeq⟩ := ih [] v (by simp) hsub
        exact ⟨dictSet d k (.vdict sub), by simp [setFieldAux, hget, hsubeq]⟩
      | some w =>
        cases w with
        | vdict sub =>
          simp only [crossesNonDict, hget] at h
          obtain ⟨sub2, hsubeq⟩ := ih sub v (by simp) h
          exact ⟨dictSet d k (.vdict sub2), by simp [setFieldAux, hget, hsubeq]⟩
        | vnone => simp [crossesNonDict, hget] at h
        | vbool b => simp [crossesNonDict, hget] at h
        | vint n => simp [crossesNonDict, hget] at h
        | vrat q => simp [crossesNonDict, hget] at h
        | vstr s => simp [crossesNonDict, hget] at h

/-- Claim C5 counterexample: the record written for empty text has
`overall_score` 1.0, not 0.0; and the tagger can fail on empty input: with a
non-dict `metadata` value the write to the default `to` path raises
`TypeError`, and with an empty `to` path it raises `ValueError`. -/
theorem gopher_repetition_empty_cex :
    dictGet (gopherRepetitionEmptyRecord [2, 3, 4] [5, 6, 7, 8, 9, 10]) "overall_score"
      = some (.vrat 1) ∧
    Value.vrat 1 ≠ Value.vrat 0 ∧
    gopherRepetitionCall [2, 3, 4] [5, 6, 7, 8, 9, 10] "text" "metadata.gopher_repetition"
        [("text", .vstr ""), ("metadata", .vint 5)] = .error .typeError ∧
    gopherRepetitionCall [2, 3, 4] [5, 6, 7, 8, 9, 10] "text" "" [("text", .vstr "")]
      = .error .emptyPath := by
  refine ⟨rfl, fun h => ?_, rfl, rfl⟩
  injection h with h2
  exact absurd h2 (by norm_num)

/-- Claim C5 (amended): for every row whose `on` field is falsy, the Gopher
repetition tagger writes the empty-text record to `to`; every field of that
record other than `overall_score` is 0.0 and `overall_score` is 1.0; and the
call fails exactly when the write fails: with the empty-path error when `to`
is empty, with a type error when the `to` path crosses an existing non-dict
intermediate, and it succeeds on every other row. -/
theorem gopher_repetition_empty_contract (topNs dupNs : List ℕ) (onF toF : String)
    (row : Row) (h : pyFalsy (get_field row onF) = true) :
    gopherRepetitionCall topNs dupNs onF toF row
      = set_field row toF (.vdict (gopherRepetitionEmptyRecord topNs dupNs)) ∧
    (∀ p ∈ gopherRepetitionEmptyRecord topNs dupNs, p.1 ≠ "overall_score" → p.2 = .vrat 0) ∧
    dictGet (gopherRepetitionEmptyRecord topNs dupNs) "overall_score" = some (.vrat 1) ∧
    (toF = "" →
      gopherRepetitionCall topNs dupNs onF toF row = .error .emptyPath) ∧
    (toF ≠ "" → crossesNonDict row (pySplitChar '.' toF) = true →
      gopherRepetitionCall topNs dupNs onF toF row = .error .typeError) ∧
    (toF ≠ "" → crossesNonDict row (pySplitChar '.' toF) = false →
      ∃ row2, gopherRepetitionCall topNs dupNs onF toF row = .ok row2) := by
  have hcall : gopherRepetitionCall topNs dupNs onF toF row
      = set_field row toF (.vdict (gopherRepetitionEmptyRecord topNs dupNs)) := by
    simp only [gopherRepetitionCall, h, if_true]
  refine ⟨hcall, ?_, rfl, ?_, ?_, ?_⟩
  · intro p hp hne
    simp only [gopherRepetitionEmptyRecord, List.append_assoc, List.mem_append,
      List.mem_cons, List.mem_map, List.not_mem_nil, or_false] at hp
    rcases hp with (h1 | h1 | h1 | h1 | h1) | ⟨n, _, h1⟩ | ⟨n, _, h1⟩
    · rw [h1]
    · rw [h1]
    · rw [h1]
    · rw [h1]
    · exact absurd (by rw [h1]) hne
    · rw [← h1]
    · rw [← h1]
  · intro htoF
    rw [hcall, htoF]
    simp [set_field]
  · intro htoF hcross
    rw [hcall]
    unfold set_field
    rw [if_neg htoF]
    exact setFieldAux_typeError (pySplitChar '.' toF) row _ hcross
  · intro htoF hcross
    rw [hcall]
    unfold set_field
    rw [if_neg htoF]
    exact setFieldAux_ok_of_not_crossing (pySplitChar '.' toF) row _
      (splitCharAux_ne_nil '.' toF.toList []) hcross

/-- Claim C9: the set bits of the bloom filter grow monotonically over any
sequence of put and get operations: a bit that is 1 stays 1. -/
theorem bloom_bits_monotone (sig : String → List ℕ) (hashesOf : ℕ → List ℕ)
    (ops : List BloomOp) (st : BloomBits) (i j : ℕ) (h : st i j = true) :
    bloomRun sig hashesOf st ops i j = true := by
  induction ops generalizing st with
  | nil => exact h
  | cons op rest ih =>
    cases op with
    | put d => exact ih (bloomPut sig hashesOf st d) (by simp [bloomPut, h])
    | get d => exact ih st h

/-- Witness for C9 on a concrete run of one put and one get. -/
theorem bloom_bits_monotone_witness :
    ((fun _ _ => true) : BloomBits) 0 0 = true ∧
    bloomRun (fun _ => [0]) (fun _ => [0]) (fun _ _ => true)
      [.put "a", .get "a"] 0 0 = true :=
  ⟨rfl, bloom_bits_monotone (fun _ => [0]) (fun _ => [0]) [.put "a", .get "a"]
    (fun _ _ => true) 0 0 rfl⟩

/-- Claim C6: the configured top-K is never forwarded by
`CounterAggregation.__call__`, so with a configured K of 1 and two counted
values, finalize still returns both entries instead of the top 1. -/
theorem counter_top_k_ignored :
    counterFinalize (counterAggregationCall (some 1)) [("a", 2), ("b", 1)]
      = [("a", 2), ("b", 1)] ∧
    (counterFinalize (counterAggregationCall (some 1)) [("a", 2), ("b", 1)]).length ≠ 1 :=
  ⟨rfl, by decide⟩

/-- Claim C1: evaluated on a row holding the fresh paragraph "A" and an empty
filter, the formatter writes the empty string to `to` (the claim expects the
newly inserted paragraph "A" to be retained), and the probed filter bit shows
that nothing was inserted: `bool is None` is always false, so every paragraph
is treated as a duplicate. -/
theorem dedup_drops_fresh_paragraph :
    (dedupCall (fun _ => [0]) (fun _ => [0]) (some '\n') "text" "text"
        (fun _ _ => false) [("text", .vstr "A")]).2
      = Except.ok [("text", Value.vstr "")] ∧
    (dedupCall (fun _ => [0]) (fun _ => [0]) (some '\n') "text" "text"
        (fun _ _ => false) [("text", .vstr "A")]).1 0 0 = false ∧
    Value.vstr "" ≠ Value.vstr "A" := by
  refine ⟨rfl, rfl, fun h => ?_⟩
  injection h with h2
  exact absurd h2 (by decide)

/-- Claim C10: for a positive shingle word count, `_get_shingles` never
returns an empty set: with fewer words than the count it returns the
singleton of the space-joined words, and otherwise at least one n-gram
window exists; hence the zero-vector branch of `_get_minhash_signature` is
unreachable from `Signature.__call__`. -/
theorem getShingles_ne_nil (n : ℕ) (text : String) (hn : 1 ≤ n) :
    getShingles n text ≠ [] ∧
    (∀ P p a b hsh, getMinhashSignature P p a b hsh (getShingles n text)
      = (getShingles n text).foldl
          (fun sig s => List.zipWith min sig (permHashRow P p a b (hsh s)))
          (List.replicate P maxVal)) ∧
    ((pySplitWs text).length < n →
      getShingles n text = [String.intercalate " " (pySplitWs text)]) := by
  have h1 : getShingles n text ≠ [] := by
    unfold getShingles
    by_cases hlt : (pySplitWs text).length < n
    · simp [hlt]
    · rw [if_neg hlt]
      rw [Ne, List.dedup_eq_nil, List.map_eq_nil_iff]
      unfold signatureNGrams
      rw [if_neg (by omega)]
      intro hmap
      rw [List.map_eq_nil_iff, List.range_eq_nil] at hmap
      omega
  refine ⟨h1, ?_, ?_⟩
  · intro P p a b hsh
    unfold getMinhashSignature
    rw [if_neg (by simpa [List.isEmpty_iff] using h1)]
  · intro hlt
    unfold getShingles
    rw [if_pos hlt]

/-- Witness for C10 with shingle word count 1 on the empty string. -/
theorem getShingles_ne_nil_witness :
    1 ≤ 1 ∧ getShingles 1 "" ≠ [] :=
  ⟨le_refl 1, (getShingles_ne_nil 1 "" (le_refl 1)).1⟩

/-- Witness for C5 (amended) at the empty row, whose `text` field is absent
and therefore falsy. -/
theorem gopher_repetition_empty_contract_witness :
    pyFalsy (get_field [] "text") = true ∧
    gopherRepetitionCall [2, 3, 4] [5, 6, 7, 8, 9, 10] "text" "metadata.gopher_repetition" []
      = set_field [] "metadata.gopher_repetition"
          (.vdict (gopherRepetitionEmptyRecord [2, 3, 4] [5, 6, 7, 8, 9, 10])) :=
  ⟨rfl, (gopher_repetition_empty_contract [2, 3, 4] [5, 6, 7, 8, 9, 10] "text"
      "metadata.gopher_repetition" [] rfl).1⟩

theorem permHash_eval (p a b h : ℕ) (ha : a < maxVal) (hb : b < maxVal) (hh : h < U32) :
    permHash p a b h = (a * h + b) % p % maxVal := by
  have hMV : maxVal = 4294967295 := by norm_num [maxVal]
  have h32 : U32 = 4294967296 := by norm_num [U32]
  have h64 : U64 = 18446744073709551616 := by norm_num [U64]
  rw [hMV] at ha hb
  rw [h32] at hh
  have hmul : a * h ≤ 4294967294 * 4294967295 := Nat.mul_le_mul (by omega) (by omega)
  have hmul' : (4294967294 : ℕ) * 4294967295 = 18446744060824649730 := by norm_num
  unfold permHash
  rw [Nat.mod_eq_of_lt (show a * h < U64 by omega),
    Nat.mod_eq_of_lt (show a * h + b < U64 by omega)]

theorem foldl_zipWith_min (P : ℕ) (f : String → ℕ → ℕ) (L : List String) :
    ∀ g : ℕ → ℕ,
      L.foldl (fun sig s => List.zipWith min sig ((List.range P).map (f s)))
        ((List.range P).map g)
      = (List.range P).map (fun i => L.foldl (fun v s => min v (f s i)) (g i)) := by
  induction L with
  | nil => intro g; rfl
  | cons s L ih =>
    intro g
    simp only [List.foldl_cons]
    rw [List.zipWith_map, List.zipWith_same]
    exact ih (fun i => min (g i) (f s i))

/-- Claim C2 counterexample: at the admissible parameters `a = 1`, `b = 0`
and shingle hash `2^32 - 1` (within the 32-bit range of `mmh3`), the code's
outer modulus `max_val = 2^32 - 1` maps the permutation hash to 0, while the
claimed modulus 2^32 leaves it at `2^32 - 1`, so the signatures differ. -/
theorem minhash_modulus_cex :
    getMinhashSignature 1 4294967311 (fun _ => 1) (fun _ => 0) (fun _ => 4294967295) ["x"]
      = [0] ∧
    minhashSpecFormula 1 4294967311 (fun _ => 1) (fun _ => 0) (fun _ => 4294967295) ["x"]
      = [4294967295] ∧
    ([0] : List ℕ) ≠ [4294967295] :=
  ⟨by decide, by decide, by decide⟩

/-- Claim C2 (amended): for every non-empty shingle set and parameters in the
ranges the source draws them from (`a` in `[1, max_val)`, `b` in
`[0, max_val)`, 32-bit unsigned shingle hashes), the MinHash signature is the
component-wise minimum over shingles of `((a*h + b) mod p) mod (2^32 - 1)`,
initialized to `2^32 - 1` in every component. -/
theorem minhash_matches_amended (P p : ℕ) (a b : ℕ → ℕ) (hsh : String → ℕ)
    (shingles : List String) (hne : shingles ≠ [])
    (ha : ∀ i, a i < maxVal) (hb : ∀ i, b i < maxVal) (hh : ∀ s, hsh s < U32) :
    getMinhashSignature P p a b hsh shingles
      = minhashAmendedFormula P p a b hsh shingles := by
  unfold getMinhashSignature minhashAmendedFormula
  rw [if_neg (by simpa [List.isEmpty_iff] using hne)]
  have hrep : List.replicate P maxVal = (List.range P).map (fun _ => maxVal) := by
    rw [show (fun _ : ℕ => maxVal) = Function.const ℕ maxVal from rfl,
      List.map_const, List.length_range]
  simp only [permHashRow, hrep]
  rw [foldl_zipWith_min P (fun s i => permHash p (a i) (b i) (hsh s)) shingles
    (fun _ => maxVal)]
  apply List.map_congr_left
  intro i _
  rw [List.foldl_map]
  congr 1
  funext v s
  rw [permHash_eval p (a i) (b i) (hsh s) (ha i) (hb i) (hh s)]

/-- Witness for C2 (amended) at two concrete shingles and small in-range
parameters. -/
theorem minhash_matches_amended_witness :
    getMinhashSignature 2 4294967311 (fun _ => 5) (fun _ => 3) (fun s => s.length % 10)
        ["x", "yz"]
      = minhashAmendedFormula 2 4294967311 (fun _ => 5) (fun _ => 3) (fun s => s.length % 10)
        ["x", "yz"] :=
  minhash_matches_amended 2 4294967311 (fun _ => 5) (fun _ => 3) (fun s => s.length % 10)
    ["x", "yz"] (by decide) (by intro i; exact (by decide : (5 : ℕ) < maxVal))
    (by intro i; exact (by decide : (3 : ℕ) < maxVal))
    (by intro s; exact lt_of_lt_of_le (Nat.mod_lt _ (by norm_num)) (by norm_num [U32]))

theorem bandsGood_step (P : ℕ) (err : ℕ → ℕ → ℚ) (k : ℕ) (s : ℕ × ℕ × Option ℚ)
    (hs : BandsGood P err k s) :
    BandsGood P err (k + 1) (setBandsStep P err s (k + 1)) := by
  obtain ⟨bb, br, oe⟩ := s
  unfold setBandsStep
  by_cases hdvd : P % (k + 1) = 0
  · rw [if_pos hdvd]
    cases oe with
    | none =>
      obtain ⟨hb1, hbr, hnone⟩ := hs
      refine ⟨Nat.le_add_left 1 k, le_refl _, hdvd, rfl, rfl, ?_⟩
      intro b hb1' hbk hbd
      rcases eq_or_lt_of_le hbk with heq | hblt
      · subst heq
        exact ⟨le_refl _, fun _ => le_refl _⟩
      · exact absurd hbd (hnone b hb1' (by omega))
    | some e =>
      obtain ⟨h1, h2, h3, h4, h5, h6⟩ := hs
      show BandsGood P err (k + 1)
        (if err (k + 1) (P / (k + 1)) < e then
          (k + 1, P / (k + 1), some (err (k + 1) (P / (k + 1))))
        else (bb, br, some e))
      by_cases hlt : err (k + 1) (P / (k + 1)) < e
      · rw [if_pos hlt]
        refine ⟨Nat.le_add_left 1 k, le_refl _, hdvd, rfl, rfl, ?_⟩
        intro b hb1' hbk hbd
        rcases eq_or_lt_of_le hbk with heq | hblt
        · subst heq
          exact ⟨le_refl _, fun _ => le_refl _⟩
        · have hold := h6 b hb1' (by omega) hbd
          refine ⟨le_trans (le_of_lt hlt) hold.1, fun htie => ?_⟩
          exfalso
          have hle : e ≤ err (k + 1) (P / (k + 1)) := htie ▸ hold.1
          exact absurd (lt_of_le_of_lt hle hlt) (lt_irrefl e)
      · rw [if_neg hlt]
        refine ⟨h1, by omega, h3, h4, h5, ?_⟩
        intro b hb1' hbk hbd
        rcases eq_or_lt_of_le hbk with heq | hblt
        · subst heq
          exact ⟨not_lt.mp hlt, fun _ => by omega⟩
        · exact h6 b hb1' (by omega) hbd
  · rw [if_neg hdvd]
    cases oe with
    | none =>
      obtain ⟨hb1, hbr, hnone⟩ := hs
      refine ⟨hb1, hbr, ?_⟩
      intro b hb1' hbk
      rcases eq_or_lt_of_le hbk with heq | hblt
      · subst heq; exact hdvd
      · exact hnone b hb1' (by omega)
    | some e =>
      obtain ⟨h1, h2, h3, h4, h5, h6⟩ := hs
      refine ⟨h1, by omega, h3, h4, h5, ?_⟩
      intro b hb1' hbk hbd
      rcases eq_or_lt_of_le hbk with heq | hblt
      · subst heq; exact absurd hbd hdvd
      · exact h6 b hb1' (by omega) hbd

theorem bandsGood_fold (P : ℕ) (err : ℕ → ℕ → ℚ) (n : ℕ) :
    BandsGood P err n ((List.range' 1 n).foldl (setBandsStep P err) (1, P, none)) := by
  induction n with
  | zero =>
    refine ⟨rfl, rfl, ?_⟩
    intro b hb1 hb0
    omega
  | succ k ih =>
    rw [List.range'_concat, show 1 + 1 * k = k + 1 by ring, List.foldl_append,
      List.foldl_cons, List.foldl_nil]
    exact bandsGood_step P err k _ ih

/-- Claim C3: for every permutation count P of at least 1 and every error
function on divisor pairs (abstracting `abs((1/b)**(1/r) - threshold)`), the
chosen band geometry (B, R) satisfies B * R = P, attains the global minimum
error over all divisor pairs of P, and is the smallest B among minimizers. -/
theorem setBands_optimal (P : ℕ) (err : ℕ → ℕ → ℚ) (hP : 1 ≤ P) :
    (setBands P err).1 * (setBands P err).2 = P ∧
    (∀ b r, b * r = P → err (setBands P err).1 (setBands P err).2 ≤ err b r) ∧
    (∀ b r, b * r = P → err b r = err (setBands P err).1 (setBands P err).2 →
      (setBands P err).1 ≤ b) := by
  have hg := bandsGood_fold P err P
  rcases hfold : (List.range' 1 P).foldl (setBandsStep P err) (1, P, none) with ⟨bb, br, oe⟩
  rw [hfold] at hg
  have hsb : setBands P err = (bb, br) := by unfold setBands; rw [hfold]
  cases oe with
  | none =>
    obtain ⟨-, -, hnone⟩ := hg
    exact absurd (Nat.mod_one P) (hnone 1 (le_refl 1) hP)
  | some e =>
    obtain ⟨hbb1, hbbP, hmod, hbr, he, hmin⟩ := hg
    have hdvd : bb ∣ P := Nat.dvd_of_mod_eq_zero hmod
    rw [hsb]
    have hkey : ∀ b r, b * r = P → e ≤ err b r ∧ (err b r = e → bb ≤ b) := by
      intro b r hbrP
      have hb0 : b ≠ 0 := by rintro rfl; rw [zero_mul] at hbrP; omega
      have hr0 : r ≠ 0 := by rintro rfl; rw [mul_zero] at hbrP; omega
      have hbP : b ≤ P := by
        calc b = b * 1 := (mul_one b).symm
          _ ≤ b * r := Nat.mul_le_mul_left b (by omega)
          _ = P := hbrP
      have hmodb : P % b = 0 := by rw [← hbrP]; exact Nat.mul_mod_right b r
      have hPb : P / b = r := by
        rw [← hbrP]; exact Nat.mul_div_cancel_left r (Nat.pos_of_ne_zero hb0)
      have hold := hmin b (Nat.one_le_iff_ne_zero.mpr hb0) hbP hmodb
      rw [hPb] at hold
      exact hold
    refine ⟨?_, ?_, ?_⟩
    · rw [hbr]
      exact Nat.mul_div_cancel' hdvd
    · intro b r hbrP
      calc err bb br = e := he.symm
        _ ≤ err b r := (hkey b r hbrP).1
    · intro b r hbrP htie
      exact (hkey b r hbrP).2 (htie.trans he.symm)

/-- Witness for C3 at P = 6 with the error function that prefers few bands. -/
theorem setBands_optimal_witness :
    1 ≤ 6 ∧ (setBands 6 (fun b _ => (b : ℚ))).1 * (setBands 6 (fun b _ => (b : ℚ))).2 = 6 :=
  ⟨by decide, (setBands_optimal 6 (fun b _ => (b : ℚ)) (by decide)).1⟩

end LLMData
